import Mathlib

/-!
Shallow embedding of `server/block_processor.py` from the
atomicals-electrumx repository (the prefetcher, the block processor and
its flush / recovery protocol), together with the pieces of its
collaborators (`server/cache.py`: FSCache and UTXOCache) that the
block-processor code calls; those collaborators are not part of the
source tree, so they are modelled from the specification, as marked on
each definition.

Conventions:
- Python byte strings are `List Nat` (each element a byte value);
- Python ints are `Int` (or `Nat` where the source value is a count);
- in-place mutation with exceptions is state passing returning
  `State × Option ChainErr`: the state at the raise point is kept, as a
  Python `raise` keeps mutations already made to `self`;
- wall-clock time (`time.time()`, `wall_time` accumulation) is
  abstracted: `wall_time` is carried through unchanged.
-/

set_option autoImplicit false

namespace ElectrumX

/-- Python byte strings, one `Nat` per byte. -/
abbrev Bytes := List Nat

/-- struct.pack of a big-endian 16-bit value (`>H`).  Python raises
when the value does not fit in 16 bits; values written by the code are
flush counts far below that, so the wrap is never exercised. -/
def be16 (n : Nat) : Bytes := [n / 256 % 256, n % 256]

/-- Little-endian 32-bit encoding of one value (`<I`, one cell of an
`array('I')`). -/
def le32 (n : Nat) : Bytes := [n % 256, n / 256 % 256, n / 65536 % 256, n / 16777216 % 256]

/-- array('I').tobytes(): concatenation of little-endian 32-bit cells. -/
def pack32 (ns : List Nat) : Bytes := ns.flatMap le32

/-- Little-endian interpretation of a byte string as a number. -/
def leNat : Bytes → Nat
  | [] => 0
  | b :: rest => b + 256 * leNat rest

/-- array('I').frombytes: split into 4-byte little-endian cells
(`get_history` does this to each stored history record).  A trailing
fragment shorter than 4 bytes is not produced by the writer. -/
def unpack32 : Bytes → List Nat
  | b0 :: b1 :: b2 :: b3 :: rest => leNat [b0, b1, b2, b3] :: unpack32 rest
  | _ => []

/-- The 12-byte records of a `u`-value: `unpack('<I', v[n:n+4])` and
`unpack('<Q', v[n+4:n+12])` for n in range(0, len(v), 12)
(`get_utxos`).  Only whole 12-byte records occur in written values. -/
def unpack12 : Bytes → List (Nat × Nat)
  | b0 :: b1 :: b2 :: b3 :: b4 :: b5 :: b6 :: b7 :: b8 :: b9 :: b10 :: b11 :: rest =>
      (leNat [b0, b1, b2, b3], leNat [b4, b5, b6, b7, b8, b9, b10, b11]) :: unpack12 rest
  | _ => []

/-- unpack('>H', key[-2:]): the trailing big-endian 16-bit field of a
key (the flush id of an `H`-key).  Keys shorter than 2 bytes are never
written with the `H` prefix. -/
def trailingFlushId (k : Bytes) : Nat :=
  match k.reverse with
  | b :: a :: _ => 256 * a + b
  | _ => 0

/-- unpack('<H', k[-2:]): the trailing little-endian 16-bit field of a
key (the output position of a `u`-key). -/
def trailingLE16 (k : Bytes) : Nat :=
  match k.reverse with
  | b :: a :: _ => a + 256 * b
  | _ => 0

/-- A Python value as it appears in the chain-state mapping literal
written by `flush_state` and parsed back by `ast.literal_eval`. -/
inductive PyVal where
  | int (i : Int)
  | bytes (b : Bytes)
  | str (s : String)
deriving DecidableEq

/-- The parsed chain-state record: a Python dict with string keys. -/
abbrev StateDict := List (String × PyVal)

/-- Python dict lookup, `None` when the key is absent. -/
def dictGet (d : StateDict) (k : String) : Option PyVal :=
  (d.find? (fun kv => kv.1 == k)).map (·.2)

/-- The chain-state dict exactly as `flush_state` builds it (same keys,
same order; note the key is `genesis`, not `genesis_hash`). -/
def encodeState (genesis : String) (height : Int) (tx_count : Int) (tip : Bytes)
    (flush_count : Int) (utxo_flush_count : Int) (wall_time : Int) : StateDict :=
  [("genesis", .str genesis),
   ("height", .int height),
   ("tx_count", .int tx_count),
   ("tip", .bytes tip),
   ("flush_count", .int flush_count),
   ("utxo_flush_count", .int utxo_flush_count),
   ("wall_time", .int wall_time)]

/-- The slice of the coin profile the block processor consults here. -/
structure Coin where
  genesis : String
deriving DecidableEq

/-- An outpoint `(prev_tx_hash, prev_out_index)`. -/
structure Outpoint where
  tx_hash : Bytes
  idx : Nat
deriving DecidableEq

/-- A transaction output: its amount and the address id (hash168)
derived from its script by the coin profile, `none` when the script
yields no address. -/
structure TxOut where
  amount : Nat
  aid : Option Bytes
deriving DecidableEq

/-- A transaction input (only its prevout matters here). -/
structure TxIn where
  prevout : Outpoint
deriving DecidableEq

/-- A parsed transaction as `process_tx` consumes it. -/
structure Tx where
  inputs : List TxIn
  outputs : List TxOut
  is_coinbase : Bool
deriving DecidableEq

/-- A block header, reduced to the two hashes `coin.header_hashes`
extracts from it (the hashing itself lives in the coin profile, an
external collaborator). -/
structure Header where
  prev_hash : Bytes
  header_hash : Bytes
deriving DecidableEq

/-- A raw block after the coin profile parse: header, tx hashes, txs. -/
structure Block where
  header : Header
  tx_hashes : List Bytes
  txs : List Tx
deriving DecidableEq

/-- coin.header_hashes(header) → (prev_hash, header_hash). -/
def headerHashes (h : Header) : Bytes × Bytes := (h.prev_hash, h.header_hash)

/-- Modelled from the spec: `FSCache` (`server/cache.py` is not under
src/).  Headers and tx hashes appended per block, plus the cumulative
per-block tx-count table that `get_tx_hash` searches. -/
structure FSCache where
  headers : List Header
  tx_hashes : List Bytes
  tx_counts : List Nat
deriving DecidableEq

/-- Modelled from the spec: `FSCache.process_block` parses the raw
block and appends the header and each tx hash to the in-memory
buffers, before the caller applies any transaction. -/
def fsProcessBlock (fs : FSCache) (b : Block) : FSCache :=
  { headers := fs.headers ++ [b.header],
    tx_hashes := fs.tx_hashes ++ b.tx_hashes,
    tx_counts := fs.tx_counts ++ [fs.tx_hashes.length + b.tx_hashes.length] }

/-- Modelled from the spec: `FSCache.get_tx_hash(tx_num)` reads record
`tx_num` of the tx-hashes file and finds the containing height in the
cumulative tx-count table. -/
def getTxHash (fs : FSCache) (txn : Nat) : Bytes × Nat :=
  (fs.tx_hashes.getD txn [], fs.tx_counts.findIdx (fun c => txn < c))

/-- The `(hash168, tx_num, amount)` payload a cached UTXO carries. -/
structure UtxoEntry where
  aid : Bytes
  txn : Nat
  amount : Nat
deriving DecidableEq

/-- Modelled from the spec: `UTXOCache`, with the hash-index /
AID-index record encodings abstracted into one outpoint-keyed map per
tier: `cache` holds outputs created and not yet flushed, `db` the
disk-resident set (`db_cache` plus the on-disk `h`/`u` records). -/
structure UTXOCache where
  cache : List (Outpoint × UtxoEntry)
  db : List (Outpoint × UtxoEntry)
deriving DecidableEq

/-- Lookup of an outpoint in one tier. -/
def opLookup (l : List (Outpoint × UtxoEntry)) (op : Outpoint) : Option UtxoEntry :=
  (l.find? (fun kv => kv.1 == op)).map (·.2)

/-- Removal of an outpoint from one tier. -/
def opRemove (l : List (Outpoint × UtxoEntry)) (op : Outpoint) : List (Outpoint × UtxoEntry) :=
  l.filter (fun kv => !(kv.1 == op))

/-- Python set insertion (`set.add`); membership-checked so the result
stays duplicate free. -/
def setInsert (l : List Bytes) (a : Bytes) : List Bytes :=
  if a ∈ l then l else a :: l

/-- Error kinds raised by the embedded code.  The source raises
`ChainError` with distinct messages (and two Python built-in errors);
the constructors keep those cases apart and carry the formatted-in
payloads. -/
inductive ChainErr where
  | chainReorg (tip : Bytes) (prev_hash : Bytes)
  | corruptIndex
  | wrongChain (stored : PyVal) (expected : String)
  | keyError (k : String)
  | missingUtxo (op : Outpoint)
  | assertionFailed
deriving DecidableEq

/-- Modelled from the spec: the worker of `UTXOCache.add_many`: for
each output in order, derive its AID; skip outputs without one;
otherwise insert the new UTXO into `cache` and collect the AID into
the returned set. -/
def addManyGo (txh : Bytes) (txn : Nat) :
    UTXOCache → List Bytes → Nat → List TxOut → UTXOCache × List Bytes
  | uc, aids, _, [] => (uc, aids)
  | uc, aids, idx, o :: rest =>
    match o.aid with
    | none => addManyGo txh txn uc aids (idx + 1) rest
    | some a =>
        addManyGo txh txn
          { uc with cache := uc.cache ++ [(⟨txh, idx⟩, ⟨a, txn, o.amount⟩)] }
          (setInsert aids a) (idx + 1) rest

/-- Modelled from the spec: `UTXOCache.add_many(tx_hash, tx_num,
outputs)` returns the set of AIDs touched by the outputs. -/
def addMany (uc : UTXOCache) (txh : Bytes) (txn : Nat) (outs : List TxOut) :
    UTXOCache × List Bytes :=
  addManyGo txh txn uc [] 0 outs

/-- Modelled from the spec: `UTXOCache.spend(prevout)` consults the
unflushed `cache` first (a same-batch output), then the disk tier;
the matching record is removed and its AID returned; an unresolvable
outpoint fails (CorruptIndex kind). -/
def spend (uc : UTXOCache) (op : Outpoint) : Except ChainErr (UTXOCache × Bytes) :=
  match opLookup uc.cache op with
  | some e => .ok ({ uc with cache := opRemove uc.cache op }, e.aid)
  | none =>
    match opLookup uc.db op with
    | some e => .ok ({ uc with db := opRemove uc.db op }, e.aid)
    | none => .error (.missingUtxo op)

/-- The input loop of `process_tx`: spend each prevout in order,
adding each returned AID to the set; a raise stops the loop keeping
the spends already made. -/
def spendInputs : UTXOCache → List Bytes → List TxIn → UTXOCache × List Bytes × Option ChainErr
  | uc, aids, [] => (uc, aids, none)
  | uc, aids, i :: rest =>
    match spend uc i.prevout with
    | .error e => (uc, aids, some e)
    | .ok (uc2, a) => spendInputs uc2 (setInsert aids a) rest

/-- The guarded input phase of `process_tx`: inputs are spent only for
non-coinbase transactions, and only after `add_many` has run (the
argument `uc` is the cache the output phase produced). -/
def spendPhase (uc : UTXOCache) (aids : List Bytes) (tx : Tx) :
    UTXOCache × List Bytes × Option ChainErr :=
  if tx.is_coinbase then (uc, aids, none) else spendInputs uc aids tx.inputs

/-- Modelled from the spec: `UTXOCache.flush(batch)` writes the cached
entries and queued deletions through to the store and empties the
in-memory tier (the `h`/`u` record encoding of the batch writes is
abstracted into the merged `db` tier). -/
def ucFlush (uc : UTXOCache) : UTXOCache :=
  { cache := [], db := uc.db ++ uc.cache }

/-- The history accumulator: defaultdict(array) as an association list
(`history[hash168]` defaults to an empty array). -/
abbrev Hist := List (Bytes × List Nat)

/-- Read of `history[aid]` (defaultdict: absent keys read as empty). -/
def histGet : Hist → Bytes → List Nat
  | [], _ => []
  | (k, v) :: rest, a => if k = a then v else histGet rest a

/-- `history[aid].append(n)`: extend the existing array in place, or
materialize the default entry. -/
def histAppend : Hist → Bytes → Nat → Hist
  | [], a, n => [(a, [n])]
  | (k, v) :: rest, a, n =>
      if k = a then (k, v ++ [n]) :: rest else (k, v) :: histAppend rest a n

/-- The key-value store: the prefix-iterated data rows, plus the
`state` record kept apart (its key never collides with a data
prefix). -/
structure KVDB where
  data : List (Bytes × Bytes)
  state : Option StateDict
deriving DecidableEq

/-- `batch.put` / `db.put` on a data row: replace or append. -/
def dbPut (d : List (Bytes × Bytes)) (k : Bytes) (v : Bytes) : List (Bytes × Bytes) :=
  if d.any (fun kv => kv.1 == k) then
    d.map (fun kv => if kv.1 == k then (k, v) else kv)
  else
    d ++ [(k, v)]

/-- The block processor's full mutable state: chain state, the three
caches, and the backing store. -/
structure BPState where
  coin : Coin
  db : KVDB
  db_height : Int
  db_tx_count : Nat
  flush_count : Nat
  utxo_flush_count : Nat
  wall_time : Nat
  tip : Bytes
  tx_count : Nat
  height : Int
  history : Hist
  history_size : Nat
  utxo_cache : UTXOCache
  fs_cache : FSCache
deriving DecidableEq

/-- `flush_state(batch)`: write the chain-state record from the
current fields (wall-time accounting abstracted). -/
def flushState (s : BPState) : BPState :=
  { s with db := { s.db with state := some (encodeState s.coin.genesis s.db_height
      (s.db_tx_count : Int) s.tip (s.flush_count : Int) (s.utxo_flush_count : Int)
      (s.wall_time : Int)) } }

/-- `flush_history(batch)`: bump `flush_count`, write one
`H ‖ hash168 ‖ flush_id_be16` row per address, then reset the
accumulator.  (The `history.pop(None)` guard is vacuous here: the
modelled `add_many` never yields a `None` address.) -/
def flushHistory (s : BPState) : BPState :=
  let fc := s.flush_count + 1
  let data := s.history.foldl
    (fun d kv => dbPut d ([72] ++ kv.1 ++ be16 fc) (pack32 kv.2)) s.db.data
  { s with flush_count := fc, db := { s.db with data := data },
           history := [], history_size := 0 }

/-- `flush_utxos(batch)`: flush the UTXO cache, then record that UTXOs
are current as of this flush: `utxo_flush_count ← flush_count`,
`(db_tx_count, db_height) ← (tx_count, height)`. -/
def flushUtxos (s : BPState) : BPState :=
  { s with utxo_cache := ucFlush s.utxo_cache,
           utxo_flush_count := s.flush_count,
           db_tx_count := s.tx_count,
           db_height := s.height }

/-- `flush(flush_utxos)`: files first (abstracted), then one batch:
history always, UTXOs only on request, chain state last.  The repeated
`flush_state` after the commit rewrites the same record (only
wall-time differs, which is abstracted), so it is folded into one
write. -/
def flush (s : BPState) (futxos : Bool) : BPState :=
  let s1 := flushHistory s
  let s2 := if futxos then flushUtxos s1 else s1
  flushState s2

/-- The H-key predicate of `delete_excess_history`: iterate rows with
prefix `H` (byte 72) and select those whose trailing big-endian
16-bit flush id exceeds `utxo_flush_count`. -/
def hKeyStale (ufc : Nat) (k : Bytes) : Bool :=
  [72].isPrefixOf k && decide (ufc < trailingFlushId k)

/-- `delete_excess_history(db)`: no-op when the counters agree; DB
corrupt when `flush_count < utxo_flush_count`; otherwise collect the
stale `H`-keys, delete them, set `utxo_flush_count ← flush_count` and
rewrite the state record. -/
def deleteExcessHistory (s : BPState) : BPState × Option ChainErr :=
  let diff : Int := (s.flush_count : Int) - (s.utxo_flush_count : Int)
  if diff = 0 then (s, none)
  else if diff < 0 then (s, some .corruptIndex)
  else
    let keys := (s.db.data.filter (fun kv => hKeyStale s.utxo_flush_count kv.1)).map Prod.fst
    let data := s.db.data.filter (fun kv => !(keys.contains kv.1))
    (flushState { s with utxo_flush_count := s.flush_count,
                         db := { s.db with data := data } }, none)

/-- The raw attribute values `read_state` adopts (Python assigns the
dict values to the six fields without conversion). -/
structure Adopted where
  height : PyVal
  tx_count : PyVal
  tip : PyVal
  flush_count : PyVal
  utxo_flush_count : PyVal
  wall_time : PyVal
deriving DecidableEq

/-- Python `state[k]`: the value, or a KeyError naming the key. -/
def lookupKey (d : StateDict) (k : String) : Except ChainErr PyVal :=
  match dictGet d k with
  | none => .error (.keyError k)
  | some v => .ok v

/-- `read_state(db)` after the literal parse: compare `state['genesis']`
with the coin's genesis hash; on mismatch the error message is built
from `state['genesis_hash']` (a key `flush_state` never writes);
otherwise adopt the six chain-state fields. -/
def readState (coin : Coin) (d : StateDict) : Except ChainErr Adopted := do
  let g ← lookupKey d "genesis"
  if g = PyVal.str coin.genesis then
    let h ← lookupKey d "height"
    let tc ← lookupKey d "tx_count"
    let tp ← lookupKey d "tip"
    let fc ← lookupKey d "flush_count"
    let ufc ← lookupKey d "utxo_flush_count"
    let wt ← lookupKey d "wall_time"
    pure ⟨h, tc, tp, fc, ufc, wt⟩
  else
    let gh ← lookupKey d "genesis_hash"
    throw (.wrongChain gh coin.genesis)

/-- `process_tx(tx_hash, tx)`: add the outputs as new UTXOs, then (for
non-coinbase) spend the inputs; append the ordinal to each touched
address's history, grow `history_size` by the set's size, and bump
`tx_count`.  A raise during spending keeps the cache mutations made so
far and leaves the history and counters untouched. -/
def processTx (s : BPState) (txh : Bytes) (tx : Tx) : BPState × Option ChainErr :=
  let txn := s.tx_count
  let p := addMany s.utxo_cache txh txn tx.outputs
  let q := spendPhase p.1 p.2 tx
  match q.2.2 with
  | some e => ({ s with utxo_cache := q.1 }, some e)
  | none =>
      ({ s with utxo_cache := q.1,
                history := q.2.1.foldl (fun h a => histAppend h a txn) s.history,
                history_size := s.history_size + q.2.1.length,
                tx_count := s.tx_count + 1 }, none)

/-- The per-block transaction loop: `for tx_hash, tx in zip(tx_hashes,
txs): process_tx(tx_hash, tx)`. -/
def runTxs : BPState → List (Bytes × Tx) → BPState × Option ChainErr
  | s, [] => (s, none)
  | s, (h, t) :: rest =>
    match processTx s h t with
    | (s2, some e) => (s2, some e)
    | (s2, none) => runTxs s2 rest

/-- `process_block(block)`: the FS cache parse-and-append runs first,
then the tip check (raising keeps the FS-cache append), then tip and
height are advanced and the transactions applied.  The wall-clock
triggered cache-size check at the end is abstracted away: it depends
on real time and touches neither the reorg path nor `height` or
`tx_count`. -/
def processBlock (s : BPState) (b : Block) : BPState × Option ChainErr :=
  let s1 := { s with fs_cache := fsProcessBlock s.fs_cache b }
  let hh := headerHashes b.header
  if hh.1 = s1.tip then
    runTxs { s1 with tip := hh.2, height := s1.height + 1 } (b.tx_hashes.zip b.txs)
  else
    (s1, some (.chainReorg s1.tip hh.1))

/-- A sequence of `process_block` calls, stopping at the first raise. -/
def runBlocks : BPState → List Block → BPState × Option ChainErr
  | s, [] => (s, none)
  | s, b :: rest =>
    match processBlock s b with
    | (s2, some e) => (s2, some e)
    | (s2, none) => runBlocks s2 rest

/-- The freshly created state (`__init__` over a new DB): genesis
chain state, empty caches, the initial state record written. -/
def initState (c : Coin) : BPState :=
  flushState
    { coin := c
      db := { data := [], state := none }
      db_height := -1
      db_tx_count := 0
      flush_count := 0
      utxo_flush_count := 0
      wall_time := 0
      tip := List.replicate 32 0
      tx_count := 0
      height := -1
      history := []
      history_size := 0
      utxo_cache := { cache := [], db := [] }
      fs_cache := { headers := [], tx_hashes := [], tx_counts := [] } }

/-- `resolve_limit`: `None` becomes −1 (no cap); a non-negative int is
honoured; anything else trips the assertion. -/
def resolveLimit : Option Int → Except ChainErr Int
  | none => .ok (-1)
  | some n => if 0 ≤ n then .ok n else .error .assertionFailed

/-- The generator countdown shared by `get_history` and `get_utxos`:
before each yield, stop if the remaining limit is exactly 0, else
yield and decrement. -/
def takeLimit {α : Type} : Int → List α → List α
  | _, [] => []
  | l, x :: xs => if l = 0 then [] else x :: takeLimit (l - 1) xs

/-- The tx ordinals stored for an address: every DB row with prefix
`H ‖ hash168`, each unpacked as a u32 array, in iteration order. -/
def histEntriesOf (s : BPState) (aid : Bytes) : List Nat :=
  (s.db.data.filter (fun kv => (([72] ++ aid) : Bytes).isPrefixOf kv.1)).flatMap
    (fun kv => unpack32 kv.2)

/-- `get_history(hash168, limit)`: resolve the limit, then yield
`get_tx_hash(tx_num)` for the stored ordinals under the countdown. -/
def getHistory (s : BPState) (aid : Bytes) (limit : Option Int) :
    Except ChainErr (List (Bytes × Nat)) :=
  match resolveLimit limit with
  | .error e => .error e
  | .ok l => .ok ((takeLimit l (histEntriesOf s aid)).map (getTxHash s.fs_cache))

/-- One yielded UTXO row of `get_utxos`. -/
structure UtxoOut where
  tx_num : Nat
  tx_pos : Nat
  tx_hash : Bytes
  height : Nat
  value : Nat
deriving DecidableEq

/-- The UTXO rows stored for an address: every DB row with prefix
`u ‖ hash168` (byte 117), its trailing position field, and its 12-byte
records, resolved through the FS cache. -/
def utxoEntriesOf (s : BPState) (aid : Bytes) : List UtxoOut :=
  (s.db.data.filter (fun kv => (([117] ++ aid) : Bytes).isPrefixOf kv.1)).flatMap
    (fun kv => (unpack12 kv.2).map (fun r =>
      { tx_num := r.1
        tx_pos := trailingLE16 kv.1
        tx_hash := (getTxHash s.fs_cache r.1).1
        height := (getTxHash s.fs_cache r.1).2
        value := r.2 }))

/-- `get_utxos(hash168, limit)`: resolve the limit, then yield the
stored UTXO rows under the same countdown. -/
def getUtxos (s : BPState) (aid : Bytes) (limit : Option Int) :
    Except ChainErr (List UtxoOut) :=
  match resolveLimit limit with
  | .error e => .error e
  | .ok l => .ok (takeLimit l (utxoEntriesOf s aid))

/-- `Prefetcher.target_cache_size`: the 10 MiB byte budget. -/
def targetCacheSize : Nat := 10 * 1024 * 1024

/-- `Prefetcher._prefill_count(room)`: the integer-average of the
recent block sizes; `room // ave` when the average is nonzero, else 0;
floored at 10. -/
def prefillCount (recent : List Nat) (room : Nat) : Nat :=
  let ave := recent.sum / recent.length
  let count := if ave = 0 then 0 else room / ave
  max count 10

/-- The hash count `_prefetch` requests from the daemon:
`min(min(daemon_height - fetched_height, 4000), _prefill_count(B))`. -/
def prefetchRequestCount (daemon_height fetched_height : Int) (recent : List Nat) : Int :=
  min (min (daemon_height - fetched_height) 4000)
    ((prefillCount recent targetCacheSize : Nat) : Int)

/-- The batch bound exactly as the specification sentence words it:
`min(daemon_height − fetched_height, 4000, max(10, B // avg))`, the
max term evaluating to 10 when the average is zero.  Written from the
spec, for comparison against `prefetchRequestCount`. -/
def specBatchBound (daemon_height fetched_height : Int) (recent : List Nat) : Int :=
  let ave := recent.sum / recent.length
  min (daemon_height - fetched_height)
    (min 4000 (if ave = 0 then 10 else max 10 ((targetCacheSize : Int) / (ave : Int))))

/-! ### Shared fixtures for concrete evaluations -/

/-- A synthetic coin profile for concrete runs. -/
def sampleCoin : Coin := ⟨"0000GENESIS"⟩

/-- A state whose stored counters say `flush_count = 2`,
`utxo_flush_count = 1`, with one stale and one current history row. -/
def recoveryState : BPState :=
  { coin := sampleCoin
    db := { data := [([72, 5, 0, 2], pack32 [1]), ([72, 5, 0, 1], pack32 [0]),
                     ([117, 5, 9, 9, 0, 0], pack32 [0])],
            state := none }
    db_height := 0
    db_tx_count := 1
    flush_count := 2
    utxo_flush_count := 1
    wall_time := 0
    tip := [7]
    tx_count := 1
    height := 0
    history := []
    history_size := 0
    utxo_cache := { cache := [], db := [] }
    fs_cache := { headers := [], tx_hashes := [], tx_counts := [] } }

/-- An impossible stored state: `flush_count = 0 < 1 = utxo_flush_count`. -/
def corruptState : BPState :=
  { recoveryState with flush_count := 0, utxo_flush_count := 1 }

/-- A genesis block: `prev_hash` all zeros, one coinbase transaction
paying address `[7]`. -/
def genesisBlock : Block :=
  { header := { prev_hash := List.replicate 32 0, header_hash := [3] }
    tx_hashes := [[4]]
    txs := [{ inputs := [], outputs := [{ amount := 50, aid := some [7] }], is_coinbase := true }] }

/-- A block whose `prev_hash` `[1]` matches no tip used below. -/
def orphanBlock : Block :=
  { header := { prev_hash := [1], header_hash := [2] }
    tx_hashes := [[4]]
    txs := [{ inputs := [], outputs := [], is_coinbase := true }] }

/-! ### Helper lemmas -/

theorem contains_filter_map_fst (l : List (Bytes × Bytes)) (p : Bytes → Bool)
    (kv : Bytes × Bytes) (hkv : kv ∈ l) :
    ((l.filter (fun x => p x.1)).map Prod.fst).contains kv.1 = p kv.1 := by
  by_cases hp : p kv.1 = true
  · rw [hp]
    have hm : kv.1 ∈ (l.filter (fun x => p x.1)).map Prod.fst :=
      List.mem_map.mpr ⟨kv, List.mem_filter.mpr ⟨hkv, hp⟩, rfl⟩
    simpa [List.contains] using hm
  · rw [Bool.not_eq_true] at hp
    rw [hp]
    by_contra hc
    rw [Bool.not_eq_false] at hc
    simp only [List.contains, List.elem_eq_mem, decide_eq_true_eq, List.mem_map,
      List.mem_filter] at hc
    obtain ⟨x, ⟨_, hpx⟩, hx1⟩ := hc
    rw [hx1] at hpx
    rw [hp] at hpx
    exact Bool.false_ne_true hpx

theorem delete_by_collected_keys (l : List (Bytes × Bytes)) (p : Bytes → Bool) :
    l.filter (fun kv => !(((l.filter (fun x => p x.1)).map Prod.fst).contains kv.1)) =
      l.filter (fun kv => !(p kv.1)) := by
  apply List.filter_congr
  intro kv hkv
  rw [contains_filter_map_fst l p kv hkv]

theorem processTx_counter_frame (s : BPState) (h : Bytes) (t : Tx) :
    ((processTx s h t).1).flush_count = s.flush_count ∧
    ((processTx s h t).1).utxo_flush_count = s.utxo_flush_count ∧
    ((processTx s h t).1).height = s.height ∧
    ((processTx s h t).1).tip = s.tip ∧
    ((processTx s h t).1).db = s.db ∧
    ((processTx s h t).1).db_height = s.db_height ∧
    ((processTx s h t).1).db_tx_count = s.db_tx_count ∧
    ((processTx s h t).1).fs_cache = s.fs_cache ∧
    ((processTx s h t).1).coin = s.coin := by
  cases hq : (spendPhase (addMany s.utxo_cache h s.tx_count t.outputs).1
      (addMany s.utxo_cache h s.tx_count t.outputs).2 t).2.2 <;>
    simp [processTx, hq]

theorem runTxs_counter_frame (pairs : List (Bytes × Tx)) (s : BPState) :
    ((runTxs s pairs).1).flush_count = s.flush_count ∧
    ((runTxs s pairs).1).utxo_flush_count = s.utxo_flush_count := by
  induction pairs generalizing s with
  | nil => exact ⟨rfl, rfl⟩
  | cons p rest ih =>
    have hf := processTx_counter_frame s p.1 p.2
    rw [runTxs]
    rcases hpt : processTx s p.1 p.2 with ⟨s2, e⟩
    rw [hpt] at hf
    cases e with
    | some err => exact ⟨hf.1, hf.2.1⟩
    | none =>
      have := ih s2
      exact ⟨this.1.trans hf.1, this.2.trans hf.2.1⟩

/-! ### C9 -/

/-- C9: a history-only flush (`flush` with `flush_utxos = false`)
increments `flush_count` by exactly 1 and leaves `utxo_flush_count`,
`db_height` and `db_tx_count` unchanged; those three fields are
assigned (`utxo_flush_count ← flush_count`, `db_height ← height`,
`db_tx_count ← tx_count`) exactly when `flush_utxos = true`. -/
theorem c9_history_only_flush_frame (s : BPState) :
    (flush s false).flush_count = s.flush_count + 1 ∧
    (flush s false).utxo_flush_count = s.utxo_flush_count ∧
    (flush s false).db_height = s.db_height ∧
    (flush s false).db_tx_count = s.db_tx_count ∧
    (flush s true).flush_count = s.flush_count + 1 ∧
    (flush s true).utxo_flush_count = (flush s true).flush_count ∧
    (flush s true).db_height = s.height ∧
    (flush s true).db_tx_count = s.tx_count :=
  ⟨rfl, rfl, rfl, rfl, rfl, rfl, rfl, rfl⟩

/-! ### C8 -/

/-- C8: a stored state with `flush_count < utxo_flush_count` makes
recovery fail (CorruptIndex kind) with the state — history rows, state
record and counters — completely untouched; and the relation
`utxo_flush_count ≤ flush_count`, once true, is preserved by every
state-mutating operation (`flush` of either kind, a successful or
failing recovery scan, and `process_block`). -/
theorem c8_flush_count_order (s : BPState) (b : Bool) (blk : Block) :
    (s.flush_count < s.utxo_flush_count →
      deleteExcessHistory s = (s, some .corruptIndex)) ∧
    (s.utxo_flush_count ≤ s.flush_count →
      (flush s b).utxo_flush_count ≤ (flush s b).flush_count) ∧
    (s.utxo_flush_count ≤ s.flush_count →
      ((deleteExcessHistory s).1).utxo_flush_count ≤ ((deleteExcessHistory s).1).flush_count) ∧
    (s.utxo_flush_count ≤ s.flush_count →
      ((processBlock s blk).1).utxo_flush_count ≤ ((processBlock s blk).1).flush_count) := by
  refine ⟨?_, ?_, ?_, ?_⟩
  · intro hlt
    unfold deleteExcessHistory
    rw [if_neg (by omega), if_pos (by omega)]
  · intro hle
    cases b with
    | false =>
      simp only [flush, flushHistory, flushState, Bool.false_eq_true, if_false]
      omega
    | true =>
      simp only [flush, flushHistory, flushUtxos, flushState, if_true]
      omega
  · intro hle
    unfold deleteExcessHistory
    by_cases h0 : ((s.flush_count : Int) - (s.utxo_flush_count : Int)) = 0
    · rw [if_pos h0]; exact hle
    · rw [if_neg h0, if_neg (by omega)]
      exact Nat.le_refl _
  · intro hle
    unfold processBlock
    by_cases hc : (headerHashes blk.header).1 =
        ({ s with fs_cache := fsProcessBlock s.fs_cache blk }).tip
    · rw [if_pos hc]
      have := runTxs_counter_frame (blk.tx_hashes.zip blk.txs)
        { s with fs_cache := fsProcessBlock s.fs_cache blk,
                 tip := (headerHashes blk.header).2, height := s.height + 1 }
      rw [this.1, this.2]
      exact hle
    · rw [if_neg hc]; exact hle

/-- C8 witness: the CorruptIndex branch at `corruptState` and the
invariant after a flush and a processed block from a fresh state. -/
theorem c8_flush_count_order_witness :
    deleteExcessHistory corruptState = (corruptState, some .corruptIndex) ∧
    (flush (initState sampleCoin) true).utxo_flush_count ≤
      (flush (initState sampleCoin) true).flush_count ∧
    ((processBlock (initState sampleCoin) genesisBlock).1).utxo_flush_count ≤
      ((processBlock (initState sampleCoin) genesisBlock).1).flush_count :=
  ⟨(c8_flush_count_order corruptState true genesisBlock).1 (by decide),
   (c8_flush_count_order (initState sampleCoin) true genesisBlock).2.1 (by decide),
   (c8_flush_count_order (initState sampleCoin) true genesisBlock).2.2.2 (by decide)⟩

/-! ### C1 -/

/-- C1 counterexample: after recovery from `flush_count = 2 >
utxo_flush_count = 1`, `flush_count` is not lowered to the
pre-recovery `utxo_flush_count` — the code raises `utxo_flush_count`
instead, so `flush_count` stays 2. -/
theorem c1_flush_count_not_lowered :
    ¬ ((deleteExcessHistory recoveryState).1.flush_count = recoveryState.utxo_flush_count) := by
  decide

/-- C1 (amended): whenever `flush_count > utxo_flush_count`, recovery
deletes exactly the `H`-prefixed rows whose trailing big-endian 16-bit
flush id exceeds `utxo_flush_count`, and afterwards `utxo_flush_count`
equals the pre-recovery `flush_count` (`utxo_flush_count` is raised;
`flush_count` is unchanged), the state record being rewritten with the
two equal counters. -/
theorem c1_delete_excess_history_amended (s : BPState)
    (hlt : s.utxo_flush_count < s.flush_count) :
    (deleteExcessHistory s).2 = none ∧
    (deleteExcessHistory s).1.flush_count = s.flush_count ∧
    (deleteExcessHistory s).1.utxo_flush_count = s.flush_count ∧
    (deleteExcessHistory s).1.db.data =
      s.db.data.filter (fun kv => !(hKeyStale s.utxo_flush_count kv.1)) ∧
    (deleteExcessHistory s).1.db.state =
      some (encodeState s.coin.genesis s.db_height (s.db_tx_count : Int) s.tip
        (s.flush_count : Int) (s.flush_count : Int) (s.wall_time : Int)) := by
  unfold deleteExcessHistory
  rw [if_neg (by omega), if_neg (by omega)]
  refine ⟨rfl, rfl, rfl, ?_, rfl⟩
  exact delete_by_collected_keys s.db.data (hKeyStale s.utxo_flush_count)

/-- C1 witness: the amended statement evaluated at `recoveryState`,
where exactly the row with flush id 2 is deleted. -/
theorem c1_delete_excess_history_witness :
    recoveryState.utxo_flush_count < recoveryState.flush_count ∧
    ((deleteExcessHistory recoveryState).2 = none ∧
     (deleteExcessHistory recoveryState).1.flush_count = recoveryState.flush_count ∧
     (deleteExcessHistory recoveryState).1.utxo_flush_count = recoveryState.flush_count ∧
     (deleteExcessHistory recoveryState).1.db.data =
       recoveryState.db.data.filter
         (fun kv => !(hKeyStale recoveryState.utxo_flush_count kv.1)) ∧
     (deleteExcessHistory recoveryState).1.db.state =
       some (encodeState recoveryState.coin.genesis recoveryState.db_height
         (recoveryState.db_tx_count : Int) recoveryState.tip
         (recoveryState.flush_count : Int) (recoveryState.flush_count : Int)
         (recoveryState.wall_time : Int))) :=
  ⟨by decide, c1_delete_excess_history_amended recoveryState (by decide)⟩

/-! ### C2 -/

/-- C2 counterexample: feeding a block whose `prev_hash` differs from
the tip does mutate the FS cache — `fs_cache.process_block` appends
the header and tx hashes before the tip comparison runs. -/
theorem c2_fs_cache_mutated :
    ¬ ((processBlock (initState sampleCoin) orphanBlock).1.fs_cache =
        (initState sampleCoin).fs_cache) := by
  decide

/-- C2 (amended): for a block whose parsed `prev_hash` differs from
the tip, `process_block` fails with the chain-reorg error carrying
`(tip, prev_hash)`, and `height`, `tx_count`, `tip`, the UTXO cache
and the history map are unchanged; the FS cache, however, has already
had the block's header and tx hashes appended before the check. -/
theorem c2_reorg_frame_amended (s : BPState) (b : Block)
    (hne : b.header.prev_hash ≠ s.tip) :
    (processBlock s b).2 = some (.chainReorg s.tip b.header.prev_hash) ∧
    (processBlock s b).1.height = s.height ∧
    (processBlock s b).1.tx_count = s.tx_count ∧
    (processBlock s b).1.tip = s.tip ∧
    (processBlock s b).1.utxo_cache = s.utxo_cache ∧
    (processBlock s b).1.history = s.history ∧
    (processBlock s b).1.history_size = s.history_size ∧
    (processBlock s b).1.fs_cache = fsProcessBlock s.fs_cache b := by
  simp only [processBlock, headerHashes]
  rw [if_neg hne]
  exact ⟨rfl, rfl, rfl, rfl, rfl, rfl, rfl, rfl⟩

/-- C2 witness: the amended statement at a fresh state and a block
whose `prev_hash` is not the zero tip. -/
theorem c2_reorg_frame_witness :
    orphanBlock.header.prev_hash ≠ (initState sampleCoin).tip ∧
    ((processBlock (initState sampleCoin) orphanBlock).2 =
       some (.chainReorg (initState sampleCoin).tip orphanBlock.header.prev_hash) ∧
     (processBlock (initState sampleCoin) orphanBlock).1.height = (initState sampleCoin).height ∧
     (processBlock (initState sampleCoin) orphanBlock).1.tx_count =
       (initState sampleCoin).tx_count ∧
     (processBlock (initState sampleCoin) orphanBlock).1.tip = (initState sampleCoin).tip ∧
     (processBlock (initState sampleCoin) orphanBlock).1.utxo_cache =
       (initState sampleCoin).utxo_cache ∧
     (processBlock (initState sampleCoin) orphanBlock).1.history =
       (initState sampleCoin).history ∧
     (processBlock (initState sampleCoin) orphanBlock).1.history_size =
       (initState sampleCoin).history_size ∧
     (processBlock (initState sampleCoin) orphanBlock).1.fs_cache =
       fsProcessBlock (initState sampleCoin).fs_cache orphanBlock) :=
  ⟨by decide, c2_reorg_frame_amended (initState sampleCoin) orphanBlock (by decide)⟩

/-! ### C3 -/

/-- C3 (the code slip on the claimed behaviour): opening a database
whose stored genesis differs from the coin profile's genesis does
fail before adopting any chain-state field — but with a `KeyError` on
`genesis_hash` raised while formatting the intended chain-mismatch
message, because `flush_state` writes the field under the key
`genesis` and the error message reads `state['genesis_hash']`. -/
theorem c3_genesis_mismatch_key_error (c : Coin) (g : String) (h tc : Int) (tip : Bytes)
    (fc ufc wt : Int) (hne : g ≠ c.genesis) :
    readState c (encodeState g h tc tip fc ufc wt) = .error (.keyError "genesis_hash") := by
  simp [readState, encodeState, lookupKey, dictGet, hne, bind, Except.bind]

/-- C3 witness: a stored record with genesis `OTHER` against the
sample coin. -/
theorem c3_genesis_mismatch_witness :
    "OTHER" ≠ sampleCoin.genesis ∧
    readState sampleCoin (encodeState "OTHER" 0 0 [0] 0 0 0) =
      .error (.keyError "genesis_hash") :=
  ⟨by decide, c3_genesis_mismatch_key_error sampleCoin "OTHER" 0 0 [0] 0 0 0 (by decide)⟩

/-! ### C6 -/

theorem takeLimit_neg {α : Type} (l : Int) (hl : l < 0) (xs : List α) :
    takeLimit l xs = xs := by
  induction xs generalizing l with
  | nil => rfl
  | cons x xs ih =>
    rw [takeLimit, if_neg (by omega)]
    rw [ih _ (by omega)]

theorem takeLimit_nat {α : Type} (n : Nat) (xs : List α) :
    takeLimit (n : Int) xs = xs.take n := by
  induction xs generalizing n with
  | nil => cases n <;> rfl
  | cons x xs ih =>
    cases n with
    | zero => rfl
    | succ m =>
      rw [takeLimit, if_neg (by omega), List.take_succ_cons]
      have hc : ((m + 1 : Nat) : Int) - 1 = (m : Int) := by omega
      rw [hc, ih]

/-- C6: each prefetch round requests exactly
`min(daemon_height − fetched_height, 4000, max(10, B // avg))` block
hashes, where `B` is the 10 MiB budget and `avg` the integer-average
of the recent-size window (the max term being 10 when the average is
zero); the hypothesis excludes an empty window, which never occurs
(the window starts as `[0]` and only grows or is trimmed to 50). -/
theorem c6_prefetch_batch_bound (dh fh : Int) (recent : List Nat) (hne : recent ≠ []) :
    prefetchRequestCount dh fh recent = specBatchBound dh fh recent := by
  unfold prefetchRequestCount specBatchBound prefillCount
  by_cases hav : recent.sum / recent.length = 0
  · simp only [hav, reduceIte]
    norm_num [min_assoc]
  · simp only [hav, reduceIte]
    push_cast
    rw [min_assoc, max_comm]

/-- C6 witness: the initial window `[0]` (zero average) against a
daemon 100 blocks ahead: both sides request 10. -/
theorem c6_prefetch_batch_witness :
    ([0] : List Nat) ≠ [] ∧
    prefetchRequestCount 100 0 [0] = specBatchBound 100 0 [0] :=
  ⟨by decide, c6_prefetch_batch_bound 100 0 [0] (by decide)⟩

/-! ### C7 -/

/-- C7: `get_history` with a non-negative limit `n` yields
`min n total` entries — at most `n`, and exactly `n` whenever at least
`n` are stored — while limit `None` yields every stored entry with no
cap; `get_utxos` obeys the same limit semantics. -/
theorem c7_limit_semantics (s : BPState) (aid : Bytes) (n : Nat) :
    (∃ l, getHistory s aid (some (n : Int)) = .ok l ∧
        l.length = min n (histEntriesOf s aid).length) ∧
    getHistory s aid none = .ok ((histEntriesOf s aid).map (getTxHash s.fs_cache)) ∧
    (∃ l, getUtxos s aid (some (n : Int)) = .ok l ∧
        l.length = min n (utxoEntriesOf s aid).length) ∧
    getUtxos s aid none = .ok (utxoEntriesOf s aid) := by
  have hres : resolveLimit (some (n : Int)) = .ok (n : Int) := by
    simp only [resolveLimit]
    rw [if_pos (by omega)]
  have hnone : resolveLimit none = .ok (-1) := rfl
  refine ⟨⟨((histEntriesOf s aid).take n).map (getTxHash s.fs_cache), ?_, ?_⟩, ?_,
    ⟨(utxoEntriesOf s aid).take n, ?_, ?_⟩, ?_⟩
  · simp [getHistory, hres, takeLimit_nat]
  · simp
  · simp [getHistory, hnone, takeLimit_neg (-1) (by omega)]
  · simp [getUtxos, hres, takeLimit_nat]
  · simp
  · simp [getUtxos, hnone, takeLimit_neg (-1) (by omega)]

/-! ### C10 -/

/-- C10: a limit that is a negative integer trips the
`resolve_limit` assertion, and the failure happens before either
generator yields a single entry, for `get_history` and `get_utxos`
alike. -/
theorem c10_negative_limit_assert (s : BPState) (aid : Bytes) (z : Int) (hz : z < 0) :
    getHistory s aid (some z) = .error .assertionFailed ∧
    getUtxos s aid (some z) = .error .assertionFailed := by
  have hres : resolveLimit (some z) = .error .assertionFailed := by
    simp only [resolveLimit]
    rw [if_neg (by omega)]
  exact ⟨by simp [getHistory, hres], by simp [getUtxos, hres]⟩

/-- C10 witness: limit −3 on a fresh state. -/
theorem c10_negative_limit_witness :
    (-3 : Int) < 0 ∧
    (getHistory (initState sampleCoin) [5] (some (-3)) = .error .assertionFailed ∧
     getUtxos (initState sampleCoin) [5] (some (-3)) = .error .assertionFailed) :=
  ⟨by decide, c10_negative_limit_assert (initState sampleCoin) [5] (-3) (by decide)⟩

/-! ### C4 -/

theorem histGet_histAppend (h : Hist) (a : Bytes) (n : Nat) (b : Bytes) :
    histGet (histAppend h a n) b = if b = a then histGet h b ++ [n] else histGet h b := by
  induction h with
  | nil =>
    by_cases hba : b = a
    · subst hba; simp [histAppend, histGet]
    · simp [histAppend, histGet, hba, Ne.symm hba]
  | cons kv rest ih =>
    obtain ⟨k, v⟩ := kv
    by_cases hka : k = a
    · subst hka
      simp only [histAppend, if_pos rfl]
      by_cases hbk : b = k
      · subst hbk; simp [histGet]
      · simp [histGet, hbk, Ne.symm hbk]
    · simp only [histAppend, if_neg hka]
      by_cases hbk : b = k
      · subst hbk
        simp [histGet, hka]
      · simp [histGet, Ne.symm hbk, ih, hbk]

theorem histGet_foldl_append (L : List Bytes) (h : Hist) (n : Nat) (b : Bytes)
    (hnd : L.Nodup) :
    histGet (L.foldl (fun acc a => histAppend acc a n) h) b =
      histGet h b ++ (if b ∈ L then [n] else []) := by
  induction L generalizing h with
  | nil => simp
  | cons a as ih =>
    rw [List.nodup_cons] at hnd
    rw [List.foldl_cons, ih _ hnd.2, histGet_histAppend]
    by_cases hba : b = a
    · subst hba
      have hnotin : b ∉ as := hnd.1
      simp [hnotin]
    · simp [hba]

theorem setInsert_nodup (l : List Bytes) (a : Bytes) (h : l.Nodup) :
    (setInsert l a).Nodup := by
  unfold setInsert
  by_cases hm : a ∈ l
  · rw [if_pos hm]; exact h
  · rw [if_neg hm]; exact List.nodup_cons.mpr ⟨hm, h⟩

theorem addManyGo_nodup (txh : Bytes) (txn : Nat) (outs : List TxOut) :
    ∀ (uc : UTXOCache) (aids : List Bytes) (idx : Nat), aids.Nodup →
      ((addManyGo txh txn uc aids idx outs).2).Nodup := by
  induction outs with
  | nil => intro uc aids idx h; exact h
  | cons o rest ih =>
    intro uc aids idx h
    cases ha : o.aid with
    | none => simp only [addManyGo, ha]; exact ih _ _ _ h
    | some a => simp only [addManyGo, ha]; exact ih _ _ _ (setInsert_nodup _ _ h)

theorem spendInputs_nodup (ins : List TxIn) :
    ∀ (uc : UTXOCache) (aids : List Bytes), aids.Nodup →
      ((spendInputs uc aids ins).2.1).Nodup := by
  induction ins with
  | nil => intro uc aids h; exact h
  | cons i rest ih =>
    intro uc aids h
    cases hs : spend uc i.prevout with
    | error e => simp only [spendInputs, hs]; exact h
    | ok p =>
      obtain ⟨uc2, a⟩ := p
      simp only [spendInputs, hs]
      exact ih _ _ (setInsert_nodup _ _ h)

theorem spendPhase_nodup (uc : UTXOCache) (aids : List Bytes) (tx : Tx)
    (h : aids.Nodup) : ((spendPhase uc aids tx).2.1).Nodup := by
  unfold spendPhase
  by_cases hc : tx.is_coinbase = true
  · rw [if_pos hc]; exact h
  · rw [if_neg hc]; exact spendInputs_nodup tx.inputs uc aids h

/-- C4: a successful `process_tx` at ordinal `n = tx_count` does
exactly this and nothing else: the outputs are added to the UTXO cache
first (collecting their AIDs, pinned by `hadd`), then — only through
`spendPhase`, which receives the cache *after* the output phase, so
outputs of the same transaction are spendable by its inputs — each
input's outpoint is spent with the returned AID joined into the set;
`n` is appended to the history of exactly the AIDs in that set,
`history_size` grows by the set's size, and `tx_count` by one; the
chain-state and DB fields are untouched. -/
theorem c4_process_tx_effects (s : BPState) (txh : Bytes) (tx : Tx) (s2 : BPState)
    (uc0 uc1 : UTXOCache) (aids0 aids1 : List Bytes) (e1 : Option ChainErr)
    (hok : processTx s txh tx = (s2, none))
    (hadd : addMany s.utxo_cache txh s.tx_count tx.outputs = (uc0, aids0))
    (hsp : spendPhase uc0 aids0 tx = (uc1, aids1, e1)) :
    e1 = none ∧ s2.utxo_cache = uc1 ∧ s2.tx_count = s.tx_count + 1 ∧
    s2.history_size = s.history_size + aids1.length ∧
    (∀ a ∈ aids1, histGet s2.history a = histGet s.history a ++ [s.tx_count]) ∧
    (∀ a, a ∉ aids1 → histGet s2.history a = histGet s.history a) ∧
    s2.height = s.height ∧ s2.tip = s.tip ∧ s2.fs_cache = s.fs_cache ∧ s2.db = s.db := by
  have hnd : aids1.Nodup := by
    have h0 : ((addMany s.utxo_cache txh s.tx_count tx.outputs).2).Nodup :=
      addManyGo_nodup txh s.tx_count tx.outputs s.utxo_cache [] 0 List.nodup_nil
    rw [hadd] at h0
    have h1 := spendPhase_nodup uc0 aids0 tx h0
    rw [hsp] at h1
    exact h1
  simp only [processTx, hadd, hsp] at hok
  cases e1 with
  | some e => simp at hok
  | none =>
    rw [Prod.mk.injEq] at hok
    obtain ⟨hs2, -⟩ := hok
    subst hs2
    refine ⟨rfl, rfl, rfl, rfl, ?_, ?_, rfl, rfl, rfl, rfl⟩
    · intro a ha
      rw [histGet_foldl_append aids1 s.history s.tx_count a hnd, if_pos ha]
    · intro a ha
      rw [histGet_foldl_append aids1 s.history s.tx_count a hnd, if_neg ha]
      simp

/-- A state holding one disk-resident UTXO at outpoint `([2], 0)`
owned by address `[9]`, to be spent by `spendTx`. -/
def spendState : BPState :=
  { initState sampleCoin with
      utxo_cache := { cache := [], db := [(⟨[2], 0⟩, ⟨[9], 0, 7⟩)] } }

/-- A non-coinbase transaction spending `([2], 0)` and paying 50 to
address `[7]`. -/
def spendTx : Tx :=
  { inputs := [⟨⟨[2], 0⟩⟩]
    outputs := [{ amount := 50, aid := some [7] }]
    is_coinbase := false }

/-- C4 witness: `spendTx` applied at `spendState` touches the two
AIDs `[9]` (spent input) and `[7]` (new output), bumping the counters
accordingly. -/
theorem c4_process_tx_witness :
    (processTx spendState [1] spendTx).1.tx_count = spendState.tx_count + 1 ∧
    (processTx spendState [1] spendTx).1.history_size =
      spendState.history_size + ([[9], [7]] : List Bytes).length ∧
    (∀ a ∈ ([[9], [7]] : List Bytes),
      histGet (processTx spendState [1] spendTx).1.history a =
        histGet spendState.history a ++ [spendState.tx_count]) := by
  have h := c4_process_tx_effects spendState [1] spendTx (processTx spendState [1] spendTx).1
      ⟨[(⟨[1], 0⟩, ⟨[7], 0, 50⟩)], [(⟨[2], 0⟩, ⟨[9], 0, 7⟩)]⟩
      ⟨[(⟨[1], 0⟩, ⟨[7], 0, 50⟩)], []⟩ [[7]] [[9], [7]] none
      (by decide) (by decide) (by decide)
  exact ⟨h.2.2.1, h.2.2.2.1, h.2.2.2.2.1⟩

/-! ### C5 -/

theorem processTx_ok_tx_count (s : BPState) (h : Bytes) (t : Tx) (s2 : BPState)
    (hok : processTx s h t = (s2, none)) : s2.tx_count = s.tx_count + 1 := by
  simp only [processTx] at hok
  cases he : (spendPhase (addMany s.utxo_cache h s.tx_count t.outputs).1
      (addMany s.utxo_cache h s.tx_count t.outputs).2 t).2.2 with
  | some e => rw [he] at hok; simp at hok
  | none =>
    rw [he] at hok
    rw [Prod.mk.injEq] at hok
    obtain ⟨h1, -⟩ := hok
    rw [← h1]

theorem runTxs_ok_counts (pairs : List (Bytes × Tx)) (s s2 : BPState)
    (hok : runTxs s pairs = (s2, none)) :
    s2.tx_count = s.tx_count + pairs.length ∧ s2.height = s.height ∧ s2.tip = s.tip := by
  induction pairs generalizing s with
  | nil =>
    simp only [runTxs] at hok
    rw [Prod.mk.injEq] at hok
    obtain ⟨h1, -⟩ := hok
    subst h1
    exact ⟨rfl, rfl, rfl⟩
  | cons p rest ih =>
    rw [runTxs] at hok
    cases hpt : processTx s p.1 p.2 with
    | mk sm e =>
      rw [hpt] at hok
      cases e with
      | some err => simp at hok
      | none =>
        have hframe := processTx_counter_frame s p.1 p.2
        simp only [hpt] at hframe
        have hcount := processTx_ok_tx_count s p.1 p.2 sm hpt
        have hr := ih sm hok
        refine ⟨?_, ?_, ?_⟩
        · rw [hr.1, hcount, List.length_cons]; omega
        · rw [hr.2.1, hframe.2.2.1]
        · rw [hr.2.2, hframe.2.2.2.1]

theorem processBlock_ok_counts (s : BPState) (b : Block) (s2 : BPState)
    (hok : processBlock s b = (s2, none))
    (hlen : b.tx_hashes.length = b.txs.length) :
    s2.tx_count = s.tx_count + b.txs.length ∧ s2.height = s.height + 1 := by
  simp only [processBlock] at hok
  by_cases hc : (headerHashes b.header).1 =
      ({ s with fs_cache := fsProcessBlock s.fs_cache b } : BPState).tip
  · rw [if_pos hc] at hok
    have hr := runTxs_ok_counts (b.tx_hashes.zip b.txs) _ s2 hok
    constructor
    · rw [hr.1]
      simp [List.length_zip, hlen]
    · rw [hr.2.1]
  · rw [if_neg hc] at hok
    simp at hok

theorem runBlocks_ok_counts (bs : List Block) (s s2 : BPState)
    (hok : runBlocks s bs = (s2, none))
    (hlen : ∀ b ∈ bs, b.tx_hashes.length = b.txs.length) :
    s2.tx_count = s.tx_count + (bs.map (fun b => b.txs.length)).sum ∧
    s2.height = s.height + bs.length := by
  induction bs generalizing s with
  | nil =>
    simp only [runBlocks] at hok
    rw [Prod.mk.injEq] at hok
    obtain ⟨h1, -⟩ := hok
    subst h1
    simp
  | cons b rest ih =>
    rw [runBlocks] at hok
    cases hpb : processBlock s b with
    | mk sm e =>
      rw [hpb] at hok
      cases e with
      | some err => simp at hok
      | none =>
        have hb := processBlock_ok_counts s b sm hpb (hlen b (by simp))
        have hr := ih sm hok (fun x hx => hlen x (by simp [hx]))
        constructor
        · rw [hr.1, hb.1, List.map_cons, List.sum_cons]; omega
        · rw [hr.2, hb.2, List.length_cons]; push_cast; omega

/-- C5: from `height = −1` and `tx_count = 0`, after any sequence of
successful `process_block` calls, `tx_count` is the sum of the blocks'
transaction counts and `height` is the number of blocks minus one
(each successful call advancing it by exactly 1).  The `hlen`
hypothesis records that the coin-profile parse yields one hash per
transaction, which `zip` relies on. -/
theorem c5_counters_after_blocks (s : BPState) (bs : List Block) (s2 : BPState)
    (hh : s.height = -1) (htc : s.tx_count = 0)
    (hlen : ∀ b ∈ bs, b.tx_hashes.length = b.txs.length)
    (hok : runBlocks s bs = (s2, none)) :
    s2.tx_count = (bs.map (fun b => b.txs.length)).sum ∧
    s2.height = (bs.length : Int) - 1 := by
  have hr := runBlocks_ok_counts bs s s2 hok hlen
  constructor
  · rw [hr.1, htc]; simp
  · rw [hr.2, hh]; omega

/-- C5 witness: one genesis block with one coinbase transaction run
from the fresh state: `tx_count = 1`, `height = 0`. -/
theorem c5_counters_witness :
    (runBlocks (initState sampleCoin) [genesisBlock]).1.tx_count =
      (([genesisBlock] : List Block).map (fun b => b.txs.length)).sum ∧
    (runBlocks (initState sampleCoin) [genesisBlock]).1.height =
      ((([genesisBlock] : List Block).length : Nat) : Int) - 1 :=
  c5_counters_after_blocks (initState sampleCoin) [genesisBlock]
    (runBlocks (initState sampleCoin) [genesisBlock]).1
    (by decide) (by decide) (by decide) (by decide)

end ElectrumX
